import Mathlib

/-!
Verification of the ranked-list memory subsystem of the change-case
extension (src/extensions/change-case/src/change-case.tsx).

Strings are modelled as lists of characters (`Str`), which matches the
JavaScript view of a string as a sequence of code points for every
operation this file uses (split, join, concatenation, equality).
Fallible operations (JavaScript code that may throw) return `Option`.
-/

/-- A JavaScript string, modelled as its sequence of characters. -/
abbrev Str := List Char

/-- Coerce a Lean string literal to the `Str` model. -/
def strL (s : String) : Str := s.data

/-- JavaScript `input.split("\n")`: split on every newline character.
`split` of the empty string is `[""]`, and a trailing newline yields a
trailing empty line, exactly as in JavaScript. -/
def splitOnNl : Str → List Str
  | [] => [[]]
  | c :: rest =>
    if c = '\n' then [] :: splitOnNl rest
    else
      match splitOnNl rest with
      | [] => [[c]]
      | h :: t => (c :: h) :: t

/-- JavaScript `arr.join(sep)` for a single-character separator. -/
def joinSep (sep : Char) : List Str → Str
  | [] => []
  | [x] => x
  | x :: xs => x ++ sep :: joinSep sep xs

/-- Model of `modifyCasesWrapper` (change-case.tsx lines 54-61): split the input on
newlines, push `case_(line)` for each line onto an accumulator array, and
join the results with `"\n"`.  The accumulator loop is kept as a fold to
mirror the source's `for`/`push` loop. -/
def modifyCasesWrapper (input : Str) (case_ : Str → Str) : Str :=
  let lines := splitOnNl input
  let modifiedArr := lines.foldl (fun acc line => acc ++ [case_ line]) ([] : List Str)
  joinSep '\n' modifiedArr

/-- The RecentList update performed by the `CopyToClipboard` /
`PasteToActiveApp` actions (change-case.tsx lines 146-148 and 168-170):
when the item is not pinned,
`setRecent([props.case, ...recent.filter((c) => c !== props.case)].slice(0, 4))`;
when it is pinned, `recent` is left untouched.  This is the spec's
`use(id, isPinned)`. -/
def useRecent (id : Str) (isPinned : Bool) (recent : List Str) : List Str :=
  if isPinned then recent
  else (id :: recent.filter (fun c => c != id)).take 4

/-- The raw `Pin Case` handler (change-case.tsx lines 202-207):
`setPinned([props.case, ...pinned])`, and when `props.recent` holds also
`setRecent(recent.filter((c) => c !== props.case))`.  Returns the new
`(pinned, recent)` pair. -/
def pinActionRaw (id : Str) (pinned recent : List Str) (isRecent : Bool) :
    List Str × List Str :=
  (id :: pinned, if isRecent then recent.filter (fun c => c != id) else recent)

/-- The coordinated pin operation as the UI exposes it.  The `Pin Case`
action is rendered only when `!props.pinned` (line 197); an identifier in
`pinned` is rendered in the Pinned section with `pinned={true}`
(lines 263-270) and is filtered out of the All Cases section (line 288),
so no pin action exists for it and the state is unchanged.  An identifier
in `recent` is rendered in the Recent section with `recent={true}`
(lines 272-281); any other identifier is rendered in All Cases with both
flags absent. -/
def uiPin (id : Str) (pinned recent : List Str) : List Str × List Str :=
  if id ∈ pinned then (pinned, recent)
  else if id ∈ recent then pinActionRaw id pinned recent true
  else pinActionRaw id pinned recent false

/-- Lower-case hexadecimal digit, as produced by `JSON.stringify`'s
`\u00XX` escapes. -/
def hexDigit (n : Nat) : Char :=
  if n < 10 then Char.ofNat ('0'.toNat + n) else Char.ofNat ('a'.toNat + (n - 10))

/-- The escaping `JSON.stringify` applies to one character of a string
(ECMA-262 QuoteJSONString). -/
def jsonEscapeChar (c : Char) : Str :=
  if c = '"' then ['\\', '"']
  else if c = '\\' then ['\\', '\\']
  else if c = '\x08' then ['\\', 'b']
  else if c = '\t' then ['\\', 't']
  else if c = '\n' then ['\\', 'n']
  else if c = '\x0c' then ['\\', 'f']
  else if c = '\x0d' then ['\\', 'r']
  else if c.toNat < 0x20 then
    ['\\', 'u', '0', '0', hexDigit (c.toNat / 16), hexDigit (c.toNat % 16)]
  else [c]

/-- Encoding `JSON.stringify` applies to one string value. -/
def jsonStringifyString (s : Str) : Str :=
  '"' :: (s.map jsonEscapeChar).flatten ++ ['"']

/-- Encoding `JSON.stringify` applies to an array of strings (no whitespace, elements
comma-separated), as written by `setPinnedCases` / `setRecentCases`
(change-case.tsx lines 75-81). -/
def jsonStringifyStringArray (l : List Str) : Str :=
  '[' :: joinSep ',' (l.map jsonStringifyString) ++ [']']

/-- Inverse of the two-character escapes accepted inside a JSON string. -/
def jsonUnescapeChar (e : Char) : Option Char :=
  if e = '"' then some '"'
  else if e = '\\' then some '\\'
  else if e = '/' then some '/'
  else if e = 'b' then some '\x08'
  else if e = 't' then some '\t'
  else if e = 'n' then some '\n'
  else if e = 'f' then some '\x0c'
  else if e = 'r' then some '\x0d'
  else none

/-- Value of a hexadecimal digit character. -/
def hexVal (c : Char) : Option Nat :=
  if '0' ≤ c ∧ c ≤ '9' then some (c.toNat - '0'.toNat)
  else if 'a' ≤ c ∧ c ≤ 'f' then some (c.toNat - 'a'.toNat + 10)
  else if 'A' ≤ c ∧ c ≤ 'F' then some (c.toNat - 'A'.toNat + 10)
  else none

/-- Parse the remainder of a JSON array of strings, positioned just after
the opening quote of the current element.  `cur` accumulates the current
element's characters in reverse.  Accepts exactly the canonical encoding
produced by `JSON.stringify` on an array of strings: after an element's
closing quote the input must continue with `,"` and a further element, or
end with `]`.  `none` models `JSON.parse` throwing a `SyntaxError` (or,
for well-formed JSON that is not an array of strings, producing a value
of the wrong shape). -/
def parseStrings : Str → Str → Option (List Str)
  | _, [] => none
  | cur, c :: rest =>
    if c = '"' then
      match rest with
      | [']'] => some [cur.reverse]
      | ',' :: '"' :: rest2 =>
        match parseStrings [] rest2 with
        | some ss => some (cur.reverse :: ss)
        | none => none
      | _ => none
    else if c = '\\' then
      match rest with
      | 'u' :: a :: b :: c2 :: d :: rest2 =>
        match hexVal a, hexVal b, hexVal c2, hexVal d with
        | some ha, some hb, some hc, some hd =>
          parseStrings (Char.ofNat (((ha * 16 + hb) * 16 + hc) * 16 + hd) :: cur) rest2
        | _, _, _, _ => none
      | e :: rest2 =>
        match jsonUnescapeChar e with
        | some c2 => parseStrings (c2 :: cur) rest2
        | none => none
      | [] => none
    else parseStrings (c :: cur) rest

/-- Model of `JSON.parse` on a stored value, specialised to the array-of-strings
shape this extension writes.  `some l` is a successful parse to the list
`l`; `none` models a thrown `SyntaxError` or a parse to a value that is
not an array of strings. -/
def jsonParseStringArray : Str → Option (List Str)
  | '[' :: rest =>
    match rest with
    | [']'] => some []
    | '"' :: rest2 => parseStrings [] rest2
    | _ => none
  | _ => none

/-- Model of `getPinnedCases` (change-case.tsx lines 65-68):
`const pinned = cache.get("pinned"); return pinned ? JSON.parse(pinned) : [];`.
The argument is the stored value under key `"pinned"` (`none` when the key
is absent).  An absent or empty stored string is falsy, yielding `[]`;
otherwise `JSON.parse` runs, and a `none` result models the exception it
throws on malformed input. -/
def getPinnedCases (stored : Option Str) : Option (List Str) :=
  match stored with
  | none => some []
  | some s => if s = [] then some [] else jsonParseStringArray s

/-- Model of `setPinnedCases` (change-case.tsx lines 75-77): the string written to
the cache under key `"pinned"` is `JSON.stringify(pinned)`. -/
def setPinnedCasesValue (pinned : List Str) : Str :=
  jsonStringifyStringArray pinned

/-- Model of `getSelection` (change-case.tsx lines 31-37): `getSelectedText()` with
any thrown error caught and replaced by `""`.  The argument is the host
call's outcome (`none` models a throw). -/
def getSelection (selectedResult : Option Str) : Str :=
  match selectedResult with
  | none => []
  | some s => s

/-- Model of `readContent` (change-case.tsx lines 39-52): prefer the clipboard or
the selection according to `preferredSource`, fall back to the other, and
throw `NoTextError` (modelled by `none`) when both are falsy. -/
def readContent (preferredSource clipboard selected : Str) : Option Str :=
  if preferredSource = strL "clipboard" then
    if clipboard ≠ [] then some clipboard
    else if selected ≠ [] then some selected
    else none
  else
    if selected ≠ [] then some selected
    else if clipboard ≠ [] then some clipboard
    else none

/-- A character that `JSON.stringify` emits verbatim: not a quote, not a
backslash, not a control character.  Every case identifier of the
extension (camelCase, snake_case, ...) consists of such characters. -/
def plainChar (c : Char) : Prop :=
  0x20 ≤ c.toNat ∧ c ≠ '"' ∧ c ≠ '\\'

instance (c : Char) : Decidable (plainChar c) := by
  unfold plainChar; infer_instance

/-! ## Helper lemmas -/

theorem foldl_push_eq_map (f : Str → Str) (l : List Str) (acc : List Str) :
    l.foldl (fun a line => a ++ [f line]) acc = acc ++ l.map f := by
  induction l generalizing acc with
  | nil => simp
  | cons x xs ih => simp [List.foldl_cons, ih]

theorem splitOnNl_ne_nil (s : Str) : splitOnNl s ≠ [] := by
  cases s with
  | nil => simp [splitOnNl]
  | cons c rest =>
    simp only [splitOnNl]
    split
    · simp
    · cases h : splitOnNl rest <;> simp

theorem splitOnNl_no_nl (s : Str) (h : '\n' ∉ s) : splitOnNl s = [s] := by
  induction s with
  | nil => rfl
  | cons c rest ih =>
    have hc : c ≠ '\n' := fun he => h (he ▸ List.mem_cons_self c rest)
    have hr : '\n' ∉ rest := fun hm => h (List.mem_cons_of_mem c hm)
    simp only [splitOnNl, if_neg hc, ih hr]

theorem splitOnNl_append_nl (p rest : Str) (h : '\n' ∉ p) :
    splitOnNl (p ++ '\n' :: rest) = p :: splitOnNl rest := by
  induction p with
  | nil => simp [splitOnNl]
  | cons c p ih =>
    have hc : c ≠ '\n' := fun he => h (he ▸ List.mem_cons_self c p)
    have hp : '\n' ∉ p := fun hm => h (List.mem_cons_of_mem c hm)
    simp only [List.cons_append, splitOnNl, if_neg hc, List.append_eq, ih hp]

theorem splitOnNl_joinSep (parts : List Str) (hne : parts ≠ [])
    (h : ∀ p ∈ parts, '\n' ∉ p) : splitOnNl (joinSep '\n' parts) = parts := by
  induction parts with
  | nil => exact absurd rfl hne
  | cons x xs ih =>
    cases xs with
    | nil => exact splitOnNl_no_nl x (h x (List.mem_cons_self x []))
    | cons y ys =>
      have hx : '\n' ∉ x := h x (List.mem_cons_self x (y :: ys))
      have hxs : ∀ p ∈ y :: ys, '\n' ∉ p := fun p hp => h p (List.mem_cons_of_mem x hp)
      simp only [joinSep, splitOnNl_append_nl x _ hx, ih (by simp) hxs]

theorem filter_ne_take_self (id : Str) (l : List Str) (n : Nat) :
    ((l.filter (fun c => c != id)).take n).filter (fun c => c != id) =
      (l.filter (fun c => c != id)).take n := by
  apply List.filter_eq_self.mpr
  intro a ha
  have h1 : a ∈ l.filter (fun c => c != id) := List.take_subset n _ ha
  exact (List.mem_filter.mp h1).2


theorem useRecent_inv (id : Str) (r : List Str) (h : r.Nodup) :
    (useRecent id false r).Nodup ∧ (useRecent id false r).length ≤ 4 := by
  constructor
  · apply List.Sublist.nodup (List.take_sublist 4 _)
    apply List.nodup_cons.mpr
    refine ⟨fun hm => ?_, h.filter _⟩
    · have := (List.mem_filter.mp hm).2
      simp at this
  · simp only [useRecent, Bool.false_eq_true, if_false]
    exact List.length_take_le 4 _

/-! ## Claim theorems -/

/-- Claim C1: `use(id, false)` removes any existing occurrence of `id`,
prepends `id`, and truncates to the first 4 elements; starting from the
empty list, using distinct `A,B,C,D` in order yields `[D,C,B,A]`, using
`A` again yields `[A,D,C,B]`, and using a fifth distinct `E` yields
`[E,A,D,C]`. -/
theorem recent_use_move_to_front_scenario (recent : List Str) (id : Str)
    (A B C D E : Str) (hAB : A ≠ B) (hAC : A ≠ C) (hAD : A ≠ D) (hAE : A ≠ E)
    (hBC : B ≠ C) (hBD : B ≠ D) (hBE : B ≠ E) (hCD : C ≠ D) (hCE : C ≠ E)
    (hDE : D ≠ E) :
    useRecent id false recent = (id :: recent.filter (fun c => c != id)).take 4 ∧
    useRecent D false (useRecent C false (useRecent B false (useRecent A false []))) =
      [D, C, B, A] ∧
    useRecent A false [D, C, B, A] = [A, D, C, B] ∧
    useRecent E false [A, D, C, B] = [E, A, D, C] := by
  refine ⟨rfl, ?_, ?_, ?_⟩
  · simp [useRecent, List.filter_cons, bne_iff_ne, hAB, hAC, hAD, hBC, hBD, hCD]
  · simp [useRecent, List.filter_cons, bne_iff_ne, hAB.symm, hAC.symm, hAD.symm]
  · simp [useRecent, List.filter_cons, bne_iff_ne, hAE, hBE, hCE, hDE]

/-- Witness for C1 at concrete identifiers. -/
theorem recent_use_move_to_front_scenario_witness :
    useRecent (strL "x") false [] =
      ((strL "x") :: List.filter (fun c => c != strL "x") []).take 4 ∧
    useRecent (strL "d") false (useRecent (strL "c") false
        (useRecent (strL "b") false (useRecent (strL "a") false []))) =
      [strL "d", strL "c", strL "b", strL "a"] ∧
    useRecent (strL "a") false [strL "d", strL "c", strL "b", strL "a"] =
      [strL "a", strL "d", strL "c", strL "b"] ∧
    useRecent (strL "e") false [strL "a", strL "d", strL "c", strL "b"] =
      [strL "e", strL "a", strL "d", strL "c"] :=
  recent_use_move_to_front_scenario [] (strL "x") (strL "a") (strL "b") (strL "c")
    (strL "d") (strL "e") (by decide) (by decide) (by decide) (by decide) (by decide)
    (by decide) (by decide) (by decide) (by decide) (by decide)

/-- Claim C2: any sequence of `use(id, false)` calls starting from the
empty RecentList yields a list of length at most 4 with no duplicate
identifier. -/
theorem recent_capacity_nodup_invariant (ids : List Str) :
    (ids.foldl (fun r id => useRecent id false r) []).length ≤ 4 ∧
    (ids.foldl (fun r id => useRecent id false r) []).Nodup := by
  suffices h : ∀ r : List Str, r.Nodup ∧ r.length ≤ 4 →
      (ids.foldl (fun r id => useRecent id false r) r).length ≤ 4 ∧
      (ids.foldl (fun r id => useRecent id false r) r).Nodup by
    exact h [] (by simp)
  induction ids with
  | nil => intro r hr; simp only [List.foldl_nil]; exact ⟨hr.2, hr.1⟩
  | cons x xs ih =>
    intro r hr
    simp only [List.foldl_cons]
    have hx := useRecent_inv x r hr.1
    exact ih _ ⟨hx.1, hx.2⟩

/-- Claim C8: `use(id, true)` leaves RecentList unchanged. -/
theorem use_pinned_noop (recent : List Str) (id : Str) :
    useRecent id true recent = recent := rfl

/-- Claim C10: applying `use(id, false)` twice in succession with the same
identifier yields the same list as applying it once. -/
theorem use_idempotent (recent : List Str) (id : Str) :
    useRecent id false (useRecent id false recent) = useRecent id false recent := by
  simp only [useRecent, Bool.false_eq_true, if_false]
  have h1 : (id :: recent.filter (fun c => c != id)).take 4
      = id :: (recent.filter (fun c => c != id)).take 3 := by
    rw [List.take_succ_cons]
  rw [h1, List.filter_cons]
  simp only [bne_self_eq_false, Bool.false_eq_true, if_false]
  rw [filter_ne_take_self id recent 3, List.take_succ_cons, List.take_take]
  simp

/-- Claim C3: pinning an identifier present in RecentList removes it from
RecentList and makes it the first element of PinnedList; when the two
lists were disjoint before, no identifier appears in both afterwards. -/
theorem pin_removes_from_recent_exclusive (id : Str) (pinned recent : List Str)
    (hmem : id ∈ recent) (hdisj : ∀ x ∈ pinned, x ∉ recent) :
    id ∉ (uiPin id pinned recent).2 ∧
    (uiPin id pinned recent).1.head? = some id ∧
    ∀ x ∈ (uiPin id pinned recent).1, x ∉ (uiPin id pinned recent).2 := by
  have hnp : id ∉ pinned := fun hp => hdisj id hp hmem
  have huip : uiPin id pinned recent =
      (id :: pinned, recent.filter (fun c => c != id)) := by
    simp [uiPin, hnp, hmem, pinActionRaw]
  rw [huip]
  refine ⟨fun hc => ?_, rfl, fun x hx hc => ?_⟩
  · have := (List.mem_filter.mp hc).2
    simp at this
  · have hc2 := List.mem_filter.mp hc
    rcases List.mem_cons.mp hx with rfl | hx2
    · simp at hc2
    · exact hdisj x hx2 hc2.1

/-- Witness for C3 at a concrete state: pin "camelCase" while it is in
RecentList. -/
theorem pin_removes_from_recent_exclusive_witness :
    strL "camelCase" ∉
      (uiPin (strL "camelCase") [strL "constantCase"]
        [strL "camelCase", strL "snake_case"]).2 ∧
    (uiPin (strL "camelCase") [strL "constantCase"]
        [strL "camelCase", strL "snake_case"]).1.head? = some (strL "camelCase") ∧
    ∀ x ∈ (uiPin (strL "camelCase") [strL "constantCase"]
        [strL "camelCase", strL "snake_case"]).1,
      x ∉ (uiPin (strL "camelCase") [strL "constantCase"]
        [strL "camelCase", strL "snake_case"]).2 :=
  pin_removes_from_recent_exclusive (strL "camelCase") [strL "constantCase"]
    [strL "camelCase", strL "snake_case"] (by decide) (by decide)

/-- Claim C5: pinning an identifier already present in PinnedList is a
no-op, and the coordinated pin operation is idempotent. -/
theorem pin_idempotent (id : Str) (pinned recent : List Str) :
    (id ∈ pinned → uiPin id pinned recent = (pinned, recent)) ∧
    uiPin id (uiPin id pinned recent).1 (uiPin id pinned recent).2 =
      uiPin id pinned recent := by
  constructor
  · intro h; simp [uiPin, h]
  · by_cases h : id ∈ pinned
    · simp [uiPin, h]
    · by_cases h2 : id ∈ recent
      · simp [uiPin, h, h2, pinActionRaw]
      · simp [uiPin, h, h2, pinActionRaw]

/-- Witness for C5: pinning an already-pinned identifier leaves the state
unchanged. -/
theorem pin_idempotent_witness :
    uiPin (strL "camelCase") [strL "camelCase"] [strL "snake_case"] =
      ([strL "camelCase"], [strL "snake_case"]) :=
  (pin_idempotent (strL "camelCase") [strL "camelCase"] [strL "snake_case"]).1
    (by decide)

/-- Claim C7: `readContent` throws `NoTextError` (modelled by `none`)
exactly when both the clipboard and the selection are empty; otherwise it
returns the text of one of the two sources, and that text is non-empty. -/
theorem read_content_no_text_iff (p c s : Str) :
    (readContent p c s = none ↔ c = [] ∧ s = []) ∧
    ∀ r, readContent p c s = some r → (r = c ∨ r = s) ∧ r ≠ [] := by
  unfold readContent
  split_ifs with h1 h2 h3 h4 h5 <;> simp_all

/-- Witness for C7: with a non-empty clipboard and empty selection the
clipboard text is returned. -/
theorem read_content_no_text_iff_witness :
    (strL "x" = strL "x" ∨ strL "x" = ([] : Str)) ∧ strL "x" ≠ ([] : Str) :=
  (read_content_no_text_iff (strL "clipboard") (strL "x") []).2 (strL "x")
    (by decide)

/-- Counterexample to claim C9 as stated: a case function whose output
contains a newline changes the number of lines ("x" has one line, the
output "a\nb" has two). -/
theorem line_count_not_preserved_cex :
    (splitOnNl (modifyCasesWrapper (strL "x") (fun _ => strL "a\nb"))).length ≠
      (splitOnNl (strL "x")).length := by decide

/-- Claim C9 (amended): the wrapper splits the input on newlines, applies
the case function to each line, and rejoins with newline; when the case
function introduces no newline on any line of the input, the number of
lines of the output equals the number of lines of the input. -/
theorem modify_cases_linewise (input : Str) (case_ : Str → Str) :
    modifyCasesWrapper input case_ = joinSep '\n' ((splitOnNl input).map case_) ∧
    ((∀ line ∈ splitOnNl input, '\n' ∉ case_ line) →
      (splitOnNl (modifyCasesWrapper input case_)).length =
        (splitOnNl input).length) := by
  have heq : modifyCasesWrapper input case_ =
      joinSep '\n' ((splitOnNl input).map case_) := by
    show joinSep '\n'
        ((splitOnNl input).foldl (fun acc line => acc ++ [case_ line]) []) = _
    rw [foldl_push_eq_map]
    simp
  refine ⟨heq, fun h => ?_⟩
  rw [heq, splitOnNl_joinSep]
  · simp
  · simp [splitOnNl_ne_nil]
  · intro p hp
    obtain ⟨line, hline, rfl⟩ := List.mem_map.mp hp
    exact h line hline

/-- Witness for C9 (amended) at a concrete two-line input with a
newline-free case function. -/
theorem modify_cases_linewise_witness :
    modifyCasesWrapper (strL "ab\ncd") (fun l => l.reverse) =
      joinSep '\n' ((splitOnNl (strL "ab\ncd")).map (fun l => l.reverse)) ∧
    (splitOnNl (modifyCasesWrapper (strL "ab\ncd") (fun l => l.reverse))).length =
      (splitOnNl (strL "ab\ncd")).length :=
  ⟨(modify_cases_linewise (strL "ab\ncd") (fun l => l.reverse)).1,
    (modify_cases_linewise (strL "ab\ncd") (fun l => l.reverse)).2 (by decide)⟩

/-- Hexadecimal digit / value roundtrip for one digit. -/
theorem hexVal_hexDigit (n : Nat) (h : n < 16) : hexVal (hexDigit n) = some n := by
  interval_cases n <;> decide

/-- The encoding of the elements after the first one of a JSON string
array, as laid out inside `jsonStringifyStringArray`. -/
def arrayTailEnc : List Str → Str
  | [] => [']']
  | s :: l => ',' :: '"' :: ((s.map jsonEscapeChar).flatten ++ '"' :: arrayTailEnc l)

/-- Parsing consumes the escape sequence of one character and records
exactly that character. -/
theorem parseStrings_escape (c : Char) (acc rest : Str) :
    parseStrings acc (jsonEscapeChar c ++ rest) = parseStrings (c :: acc) rest := by
  by_cases h1 : c = '"'
  · subst h1; simp [jsonEscapeChar, parseStrings, jsonUnescapeChar]
  by_cases h2 : c = '\\'
  · subst h2; simp [jsonEscapeChar, parseStrings, jsonUnescapeChar]
  by_cases h3 : c = '\x08'
  · subst h3; simp [jsonEscapeChar, parseStrings, jsonUnescapeChar]
  by_cases h4 : c = '\t'
  · subst h4; simp [jsonEscapeChar, parseStrings, jsonUnescapeChar]
  by_cases h5 : c = '\n'
  · subst h5; simp [jsonEscapeChar, parseStrings, jsonUnescapeChar]
  by_cases h6 : c = '\x0c'
  · subst h6; simp [jsonEscapeChar, parseStrings, jsonUnescapeChar]
  by_cases h7 : c = '\x0d'
  · subst h7; simp [jsonEscapeChar, parseStrings, jsonUnescapeChar]
  by_cases h8 : c.toNat < 0x20
  · have hdiv : c.toNat / 16 < 16 := by omega
    have hmod : c.toNat % 16 < 16 := Nat.mod_lt _ (by omega)
    have hval : ((0 * 16 + 0) * 16 + c.toNat / 16) * 16 + c.toNat % 16 = c.toNat := by
      omega
    have h0 : hexVal '0' = some 0 := by decide
    simp only [jsonEscapeChar, if_neg h1, if_neg h2, if_neg h3, if_neg h4, if_neg h5,
      if_neg h6, if_neg h7, if_pos h8, List.cons_append, List.nil_append]
    simp only [parseStrings, h0, hexVal_hexDigit _ hdiv, hexVal_hexDigit _ hmod,
      if_neg (show ¬ ('\\' : Char) = '"' by decide)]
    rw [hval, Char.ofNat_toNat]
    simp
  · simp only [jsonEscapeChar, if_neg h1, if_neg h2, if_neg h3, if_neg h4, if_neg h5,
      if_neg h6, if_neg h7, if_neg h8, List.cons_append, List.nil_append]
    conv_lhs => rw [parseStrings.eq_def]
    simp [h1, h2]

/-- Parsing consumes the stringified content of a whole string and records
exactly its characters. -/
theorem parseStrings_content (s : Str) (acc rest : Str) :
    parseStrings acc ((s.map jsonEscapeChar).flatten ++ rest) =
      parseStrings (s.reverse ++ acc) rest := by
  induction s generalizing acc with
  | nil => simp
  | cons c s ih =>
    simp only [List.map_cons, List.flatten_cons, List.append_assoc]
    rw [parseStrings_escape, ih]
    simp [List.append_assoc]

/-- Parsing an element followed by the encoded remaining elements yields
the whole remaining list. -/
theorem parseStrings_arrayTail (l : List Str) : ∀ s : Str,
    parseStrings s.reverse ('"' :: arrayTailEnc l) = some (s :: l) := by
  induction l with
  | nil =>
    intro s
    simp [parseStrings, arrayTailEnc]
  | cons s' l ih =>
    intro s
    simp only [arrayTailEnc]
    conv_lhs => rw [parseStrings.eq_def]
    simp only [if_pos rfl]
    rw [parseStrings_content]
    simp only [List.append_nil]
    rw [ih s']
    simp

/-- The array encoding of a non-empty list, re-associated to expose the
first element's content and the encoded tail. -/
theorem stringify_tail_eq (l : List Str) : ∀ s : Str,
    joinSep ',' ((s :: l).map jsonStringifyString) ++ [']'] =
      '"' :: ((s.map jsonEscapeChar).flatten ++ '"' :: arrayTailEnc l) := by
  induction l with
  | nil =>
    intro s
    simp [joinSep, jsonStringifyString, arrayTailEnc]
  | cons s' l ih =>
    intro s
    simp only [List.map_cons, joinSep, List.append_assoc, List.cons_append]
    have ih2 := ih s'
    simp only [List.map_cons] at ih2
    rw [show jsonStringifyString s ++ ',' :: (joinSep ',' (jsonStringifyString s' ::
        l.map jsonStringifyString) ++ [']']) = jsonStringifyString s ++ ',' ::
        ('"' :: ((s'.map jsonEscapeChar).flatten ++ '"' :: arrayTailEnc l)) from by
      rw [ih2]]
    simp [jsonStringifyString, arrayTailEnc, List.append_assoc]

/-- Parsing inverts stringification on every array of strings. -/
theorem jsonParse_stringify (l : List Str) :
    jsonParseStringArray (jsonStringifyStringArray l) = some l := by
  cases l with
  | nil => rfl
  | cons s l =>
    unfold jsonStringifyStringArray
    rw [List.cons_append, stringify_tail_eq l s]
    conv_lhs => rw [jsonParseStringArray.eq_def]
    simp only []
    rw [parseStrings_content]
    simp only [List.append_nil]
    exact parseStrings_arrayTail l s

/-- Claim C6: serializing any ordered sequence of identifier strings with
`save` and deserializing the stored string with `load` reproduces exactly
the same sequence in the same order. -/
theorem pinned_roundtrip (items : List Str) :
    getPinnedCases (some (setPinnedCasesValue items)) = some items := by
  have h : jsonStringifyStringArray items ≠ [] := by simp [jsonStringifyStringArray]
  simp only [getPinnedCases, setPinnedCasesValue, if_neg h]
  exact jsonParse_stringify items

/-- Counterexample to claim C4 as stated: the stored value "oops" is not a
valid serialized sequence of identifiers, and `load()` propagates the
parse failure (`JSON.parse` throws) instead of yielding an empty list. -/
theorem malformed_pinned_load_cex :
    getPinnedCases (some (strL "oops")) = none ∧
    getPinnedCases (some (strL "oops")) ≠ some [] := by decide

/-- Claim C4 (amended): an absent or empty stored value under key
"pinned" yields an empty PinnedList, but a non-empty malformed stored
value makes `load()` propagate the deserialization failure (the
`JSON.parse` exception) rather than yield an empty PinnedList. -/
theorem malformed_pinned_load_raises (s : Str) :
    getPinnedCases none = some [] ∧
    getPinnedCases (some []) = some [] ∧
    (s ≠ [] → jsonParseStringArray s = none → getPinnedCases (some s) = none) := by
  refine ⟨rfl, rfl, fun h1 h2 => ?_⟩
  simp [getPinnedCases, h1, h2]

/-- Witness for C4 (amended) at the concrete malformed value "oops". -/
theorem malformed_pinned_load_raises_witness :
    getPinnedCases (some (strL "oops")) = none :=
  (malformed_pinned_load_raises (strL "oops")).2.2 (by decide) (by decide)
